import Mathlib

/-!
Verification of the queue library (`src/queue.c`, `include/queue.h`).

The C code implements a FIFO queue of `int` as a doubly linked list of
heap-allocated nodes, together with a process-wide registry of queues
(`registered_queues`, `next_index`) that is swept at exit.

Shallow embedding conventions:
  * node addresses are `Nat`; a heap is a partial map from addresses to nodes
    plus an allocation counter (`fresh`); `malloc` returns the counter value
    and bumps it, so addresses are never reused, as with a bump allocator;
  * a C pointer to a `LinkedList` is an `Option LinkedList`
    (`none` = NULL);
  * machine `int` fields (`data`, `size`, `index`) are `Int`;
  * operations that can dereference NULL or read freed memory return
    `Except Crash _`; `.error .nullDeref` marks a NULL-pointer dereference,
    `.error .invalidRead` a read through a dangling node pointer, and
    `.error .outOfFuel` a traversal that exceeds the fuel bound.  The C
    loops (`queue_search`, `queue_free`) terminate because the chain is a
    finite acyclic list; the embedding bounds them by `fresh + 1`, which is
    proved sufficient on every well-formed state (chain addresses are
    distinct and below `fresh`);
  * `fprintf(stderr, ...)` diagnostics are not modelled, except that
    evaluating their arguments can dereference NULL (`queue_peek`);
  * the registry interaction of one queue is tracked by a ghost record
    `RegGhost`: whether this queue's slot (`registered_queues[list->index]`)
    is occupied, and how many times that slot has been written.
-/

namespace QueueC

/-- `struct Node`: one integer value plus `next`/`previous` links. -/
structure Node where
  data : Int
  next : Option Nat
  previous : Option Nat
  deriving Repr, DecidableEq

/-- The node heap: memory contents and the bump-allocation counter. -/
structure Heap where
  mem : Nat → Option Node
  fresh : Nat

/-- Write a node at an existing address. -/
def Heap.write (h : Heap) (a : Nat) (nd : Node) : Heap :=
  ⟨fun x => if x = a then some nd else h.mem x, h.fresh⟩

/-- `free` of a single node: the address becomes unmapped. -/
def Heap.dealloc (h : Heap) (a : Nat) : Heap :=
  ⟨fun x => if x = a then none else h.mem x, h.fresh⟩

/-- `malloc` of a node: returns the new heap and the fresh address. -/
def Heap.alloc (h : Heap) (nd : Node) : Heap × Nat :=
  (⟨fun x => if x = h.fresh then some nd else h.mem x, h.fresh + 1⟩, h.fresh)

/-- The heap with no allocations. -/
def emptyHeap : Heap := ⟨fun _ => none, 0⟩

/-- `struct LinkedList`: head/tail node pointers, element count, identifier. -/
structure LinkedList where
  head : Option Nat
  tail : Option Nat
  size : Int
  index : Int
  deriving Repr, DecidableEq

/-- Ghost view of this queue's registry slot
(`registered_queues[list->index]`): whether the slot currently holds the
queue, and how many times the slot has been written. -/
structure RegGhost where
  slot : Bool
  writes : Nat
  deriving Repr, DecidableEq

/-- Failure modes of the embedded C code. -/
inductive Crash where
  | nullDeref
  | invalidRead
  | outOfFuel
  deriving Repr, DecidableEq

/-- `MAX_QUEUES` from `queue.h`. -/
def MAX_QUEUES : Int := 100

/-- `initialize_linked_list(list, data)`: if the list already has a head it
returns unchanged; otherwise it allocates a single node, makes it both head
and tail, sets `size = 1` and executes
`registered_queues[list->index] = list` (ghost: slot occupied, one more
write). -/
def initialize_linked_list (h : Heap) (q : LinkedList) (g : RegGhost)
    (data : Int) : Heap × LinkedList × RegGhost :=
  match q.head with
  | some _ => (h, q, g)
  | none =>
    let (h', a) := h.alloc ⟨data, none, none⟩
    (h', { q with head := some a, tail := some a, size := 1 },
      ⟨true, g.writes + 1⟩)

/-- `queue_push(list, data)`.  NULL list: log and return.  Empty list:
`initialize_linked_list`.  Otherwise allocate a node with
`previous = list->tail`, link it after the old tail, advance `tail`,
increment `size`.  (Allocation is assumed to succeed; on failure the C
code exits the process.) -/
def queue_push (h : Heap) (lp : Option LinkedList) (g : RegGhost)
    (data : Int) : Except Crash (Heap × Option LinkedList × RegGhost) :=
  match lp with
  | none => .ok (h, none, g)
  | some q =>
    match q.head with
    | none =>
      let (h', q', g') := initialize_linked_list h q g data
      .ok (h', some q', g')
    | some _ =>
      match q.tail with
      | none => .error .nullDeref
      | some t =>
        let (h1, a) := h.alloc ⟨data, none, some t⟩
        match h1.mem t with
        | none => .error .invalidRead
        | some tnd =>
          .ok (h1.write t { tnd with next := some a },
            some { q with tail := some a, size := q.size + 1 }, g)

/-- `queue_pop(list)`: on NULL or empty list return `-1` and leave all state
unchanged; otherwise detach the head node, fix up `head`/`tail`/`previous`,
free the node, decrement `size`, and return the removed value. -/
def queue_pop (h : Heap) (lp : Option LinkedList) :
    Except Crash (Heap × Option LinkedList × Int) :=
  match lp with
  | none => .ok (h, none, -1)
  | some q =>
    match q.head with
    | none => .ok (h, some q, -1)
    | some a =>
      match h.mem a with
      | none => .error .invalidRead
      | some nd =>
        match nd.next with
        | none =>
          .ok ((h.dealloc a),
            some { q with head := none, tail := none, size := q.size - 1 },
            nd.data)
        | some b =>
          match h.mem b with
          | none => .error .invalidRead
          | some bnd =>
            .ok (((h.write b { bnd with previous := none }).dealloc a),
              some { q with head := some b, size := q.size - 1 }, nd.data)

/-- The `while (iterator != NULL)` loop of `queue_search`, fuel-bounded. -/
def search_loop (h : Heap) (data : Int) :
    Option Nat → Int → Nat → Except Crash Int
  | none, _, _ => .ok (-1)
  | some _, _, 0 => .error .outOfFuel
  | some a, pos, fuel + 1 =>
    match h.mem a with
    | none => .error .invalidRead
    | some nd =>
      if nd.data = data then .ok pos
      else search_loop h data nd.next (pos + 1) fuel

/-- `queue_search(list, data)`: the C code reads `list->head` without a NULL
check, so a NULL handle is a NULL dereference; an empty list returns `-1`;
otherwise it scans from the head, returning the 1-based position of the
first match or `-1`. -/
def queue_search (h : Heap) (lp : Option LinkedList) (data : Int) :
    Except Crash Int :=
  match lp with
  | none => .error .nullDeref
  | some q =>
    match q.head with
    | none => .ok (-1)
    | some a => search_loop h data (some a) 1 (h.fresh + 1)

/-- The node-freeing loop of `queue_free`, fuel-bounded: read `next`, free
the current node, continue. -/
def free_loop (h : Heap) : Option Nat → Nat → Except Crash Heap
  | none, _ => .ok h
  | some _, 0 => .error .outOfFuel
  | some a, fuel + 1 =>
    match h.mem a with
    | none => .error .invalidRead
    | some nd => free_loop (h.dealloc a) nd.next fuel

/-- `queue_free(list)`: on NULL or already-empty list, log and return
unchanged; otherwise free every node and reset `head`, `tail`, `size`. -/
def queue_free (h : Heap) (lp : Option LinkedList) :
    Except Crash (Heap × Option LinkedList) :=
  match lp with
  | none => .ok (h, none)
  | some q =>
    match q.head with
    | none => .ok (h, some q)
    | some a =>
      match free_loop h (some a) (h.fresh + 1) with
      | .error e => .error e
      | .ok h' => .ok (h', some { q with head := none, tail := none, size := 0 })

/-- `queue_size(list)`: `0` for a NULL or headless list, else the `size`
field. -/
def queue_size (lp : Option LinkedList) : Int :=
  match lp with
  | none => 0
  | some q =>
    match q.head with
    | none => 0
    | some _ => q.size

/-- `queue_peek(list, &out)`: on NULL list the error message evaluates
`list->index`, a NULL dereference; on an empty list it returns `false`;
otherwise `true` together with the head value written through `out`. -/
def queue_peek (h : Heap) (lp : Option LinkedList) :
    Except Crash (Bool × Option Int) :=
  match lp with
  | none => .error .nullDeref
  | some q =>
    match q.head with
    | none => .ok (false, none)
    | some a =>
      match h.mem a with
      | none => .error .invalidRead
      | some nd => .ok (true, some nd.data)

/-- `queue_is_empty(list)`: `list == NULL || list->size == 0`. -/
def queue_is_empty (lp : Option LinkedList) : Bool :=
  match lp with
  | none => true
  | some q => q.size = 0

end QueueC

namespace QueueC

/-! ## Chain well-formedness

`chainOK h p as` says the addresses `as` form a doubly linked chain in `h`:
the first node's `previous` is `p`, each node's `next` points to its
successor (the last node's `next` is NULL), and each node's `previous`
points to its predecessor. -/

/-- The addresses `as` form a well-linked chain whose first node has
`previous = p`. -/
def chainOK (h : Heap) : Option Nat → List Nat → Prop
  | _, [] => True
  | p, a :: rest =>
    ∃ nd, h.mem a = some nd ∧ nd.previous = p ∧ nd.next = rest.head? ∧
      chainOK h (some a) rest

/-- The values stored along a chain (the default is never consulted on a
well-formed chain). -/
def chainVals (h : Heap) (as : List Nat) : List Int :=
  as.map fun a => ((h.mem a).map Node.data).getD 0

/-- `as` is the chain representing queue `q` in heap `h`: the links are
consistent, `head`/`tail`/`size` match, and the addresses are distinct and
below the allocation counter. -/
def QueueRep (h : Heap) (q : LinkedList) (as : List Nat) : Prop :=
  chainOK h none as ∧ q.head = as.head? ∧ q.tail = as.getLast? ∧
    q.size = (as.length : Int) ∧ as.Nodup ∧ ∀ a ∈ as, a < h.fresh

/-- Queue `q` is well-formed in heap `h`. -/
def QueueWF (h : Heap) (q : LinkedList) : Prop := ∃ as, QueueRep h q as

theorem chainOK_congr {h h' : Heap} {as : List Nat}
    (hagree : ∀ a ∈ as, h'.mem a = h.mem a) :
    ∀ {p : Option Nat}, chainOK h p as → chainOK h' p as := by
  induction as with
  | nil => intro p _; trivial
  | cons a rest ih =>
    intro p hc
    obtain ⟨nd, hmem, hprev, hnext, hrest⟩ := hc
    exact ⟨nd, (hagree a (by simp)).trans hmem, hprev, hnext,
      ih (fun x hx => hagree x (by simp [hx])) hrest⟩

theorem chainVals_congr {h h' : Heap} {as : List Nat}
    (hagree : ∀ a ∈ as, h'.mem a = h.mem a) :
    chainVals h' as = chainVals h as := by
  unfold chainVals
  exact List.map_congr_left fun a ha => by rw [hagree a ha]

/-! ## Link walking -/

/-- Follow `next` links for `k` steps starting at address `a`. -/
def walkNext (h : Heap) : Nat → Nat → Option Nat
  | a, 0 => some a
  | a, k + 1 =>
    match (h.mem a).bind Node.next with
    | none => none
    | some b => walkNext h b k

/-- Follow `previous` links for `k` steps starting at address `a`. -/
def walkPrev (h : Heap) : Nat → Nat → Option Nat
  | a, 0 => some a
  | a, k + 1 =>
    match (h.mem a).bind Node.previous with
    | none => none
    | some b => walkPrev h b k

theorem walkNext_chainOK {h : Heap} :
    ∀ (as : List Nat) (p : Option Nat) (a : Nat), chainOK h p (a :: as) →
      walkNext h a as.length = (a :: as).getLast? := by
  intro as
  induction as with
  | nil => intro p a _; simp [walkNext]
  | cons b rest ih =>
    intro p a hc
    obtain ⟨nd, hmem, _, hnext, hrest⟩ := hc
    have hstep : walkNext h a (rest.length + 1) = walkNext h b rest.length := by
      simp [walkNext, hmem, hnext, List.head?]
    simpa [hstep] using ih (some a) b hrest

theorem walkPrev_succ {h : Heap} :
    ∀ (k : Nat) (a : Nat),
      walkPrev h a (k + 1)
        = (walkPrev h a k).bind fun c => (h.mem c).bind Node.previous := by
  intro k
  induction k with
  | zero =>
    intro a
    cases hs : (h.mem a).bind Node.previous with
    | none => simp [walkPrev, hs]
    | some b => simp [walkPrev, hs]
  | succ k ih =>
    intro a
    cases hs : (h.mem a).bind Node.previous with
    | none => simp [walkPrev, hs]
    | some b =>
      have h1 : walkPrev h a (k + 1 + 1) = walkPrev h b (k + 1) := by
        simp [walkPrev, hs]
      have h2 : walkPrev h a (k + 1) = walkPrev h b k := by
        simp [walkPrev, hs]
      rw [h1, ih b, h2]

theorem walkPrev_chainOK {h : Heap} :
    ∀ (as : List Nat) (p : Option Nat), chainOK h p as →
      ∀ t, as.getLast? = some t →
        walkPrev h t (as.length - 1) = as.head? := by
  intro as
  induction as with
  | nil => intro p _ t ht; simp at ht
  | cons a rest ih =>
    intro p hc t ht
    obtain ⟨nd, hmem, hprev, hnext, hrest⟩ := hc
    cases rest with
    | nil =>
      simp at ht
      subst ht
      simp [walkPrev]
    | cons b rest' =>
      have ht' : (b :: rest').getLast? = some t := by
        simpa [List.getLast?_cons_cons] using ht
      have hIH := ih (some a) hrest t ht'
      obtain ⟨ndb, hmemb, hprevb, _, _⟩ := hrest
      have hlen : (a :: b :: rest').length - 1 = ((b :: rest').length - 1) + 1 := by
        simp
      rw [hlen, walkPrev_succ, hIH]
      simp [List.head?, hmemb, hprevb]

end QueueC

namespace QueueC

theorem chainOK_mem {h : Heap} :
    ∀ {as : List Nat} {p : Option Nat}, chainOK h p as →
      ∀ x ∈ as, ∃ nd, h.mem x = some nd := by
  intro as
  induction as with
  | nil => intro p _ x hx; simp at hx
  | cons a rest ih =>
    intro p hc x hx
    obtain ⟨nd, hmem, _, _, hrest⟩ := hc
    rcases List.mem_cons.mp hx with hx | hx
    · exact ⟨nd, hx ▸ hmem⟩
    · exact ih hrest x hx

theorem length_le_of_nodup_lt {as : List Nat} {n : Nat}
    (hnd : as.Nodup) (hlt : ∀ x ∈ as, x < n) : as.length ≤ n := by
  have hsub : as.toFinset ⊆ Finset.range n := by
    intro x hx
    exact Finset.mem_range.mpr (hlt x (List.mem_toFinset.mp hx))
  have := Finset.card_le_card hsub
  rwa [List.toFinset_card_of_nodup hnd, Finset.card_range] at this

/-- 1-based position, counting from `pos`, of the first occurrence of `v`
in a list of values; `-1` when absent.  Mirrors the `position` counter of
`queue_search`. -/
def firstPos (v : Int) : List Int → Int → Int
  | [], _ => -1
  | x :: xs, pos => if x = v then pos else firstPos v xs (pos + 1)

theorem firstPos_eq {v : Int} :
    ∀ (vs : List Int) (pos : Int),
      firstPos v vs pos
        = if v ∈ vs then pos + (vs.indexOf v : Int) else -1 := by
  intro vs
  induction vs with
  | nil => intro pos; simp [firstPos]
  | cons x xs ih =>
    intro pos
    by_cases hx : x = v
    · subst hx
      simp [firstPos, List.indexOf_cons_self]
    · have hne : ¬(x == v) = true := by simpa using hx
      rw [firstPos, if_neg hx, ih (pos + 1)]
      by_cases hmem : v ∈ xs
      · have : v ∈ x :: xs := List.mem_cons_of_mem x hmem
        simp only [hmem, if_true, this, if_true, List.indexOf_cons, hne,
          cond_false]
        push_cast
        ring
      · have : v ∉ x :: xs := by
          intro hc
          rcases List.mem_cons.mp hc with hc | hc
          · exact hx hc.symm
          · exact hmem hc
        simp [hmem, this]

theorem search_loop_chainOK {h : Heap} {v : Int} :
    ∀ (as : List Nat) (p : Option Nat) (pos : Int) (fuel : Nat),
      chainOK h p as → as.length ≤ fuel →
      search_loop h v as.head? pos fuel
        = .ok (firstPos v (chainVals h as) pos) := by
  intro as
  induction as with
  | nil => intro p pos fuel _ _; simp [search_loop, chainVals, firstPos]
  | cons a rest ih =>
    intro p pos fuel hc hfuel
    obtain ⟨nd, hmem, _, hnext, hrest⟩ := hc
    cases fuel with
    | zero => simp at hfuel
    | succ fuel =>
      have hfuel' : rest.length ≤ fuel := by
        simpa [Nat.succ_le_succ_iff] using hfuel
      have hIH := ih (some a) (pos + 1) fuel hrest hfuel'
      rw [← hnext] at hIH
      by_cases hd : nd.data = v
      · simp [search_loop, hmem, hd, chainVals, firstPos]
      · simp [search_loop, hmem, hd, chainVals, firstPos, hIH]

theorem free_loop_chainOK {h : Heap} :
    ∀ (as : List Nat) (p : Option Nat) (fuel : Nat),
      chainOK h p as → as.Nodup → as.length ≤ fuel →
      ∃ h', free_loop h as.head? fuel = .ok h' ∧
        h'.fresh = h.fresh ∧
        ∀ x, h'.mem x = if x ∈ as then none else h.mem x := by
  intro as
  induction as generalizing h with
  | nil =>
    intro p fuel _ _ _
    exact ⟨h, by simp [free_loop], rfl, fun x => by simp⟩
  | cons a rest ih =>
    intro p fuel hc hnd hfuel
    obtain ⟨nd, hmem, _, hnext, hrest⟩ := hc
    cases fuel with
    | zero => simp at hfuel
    | succ fuel =>
      have hfuel' : rest.length ≤ fuel := by
        simpa [Nat.succ_le_succ_iff] using hfuel
      have hanotin : a ∉ rest := (List.nodup_cons.mp hnd).1
      have hrest' : chainOK (h.dealloc a) (some a) rest := by
        refine chainOK_congr (fun x hx => ?_) hrest
        have : x ≠ a := fun hxa => hanotin (hxa ▸ hx)
        simp [Heap.dealloc, this]
      obtain ⟨h', hrun, hfresh, hmem'⟩ :=
        ih (some a) fuel hrest' (List.nodup_cons.mp hnd).2 hfuel'
      refine ⟨h', ?_, by simpa [Heap.dealloc] using hfresh, fun x => ?_⟩
      · simp only [List.head?_cons, free_loop, hmem, hnext]
        exact hrun
      · rw [hmem' x]
        by_cases hxr : x ∈ rest
        · simp [hxr]
        · by_cases hxa : x = a
          · simp [hxr, hxa, Heap.dealloc]
          · simp [hxr, hxa, Heap.dealloc]

end QueueC

namespace QueueC

theorem getLast?_mem_self {l : List Nat} {t : Nat}
    (h : l.getLast? = some t) : t ∈ l := by
  obtain ⟨hne, ht⟩ := List.mem_getLast?_eq_getLast (Option.mem_def.mpr h)
  exact ht ▸ List.getLast_mem hne

theorem getLast?_snoc {α : Type} (l : List α) (a : α) :
    (l ++ [a]).getLast? = some a := by
  rw [List.getLast?_append_cons]
  rfl

theorem chainVals_append (h : Heap) (l1 l2 : List Nat) :
    chainVals h (l1 ++ l2) = chainVals h l1 ++ chainVals h l2 :=
  List.map_append _ _ _

theorem chainOK_snoc {h : Heap} {t : Nat} {tnd : Node} {v : Int}
    (htnd : h.mem t = some tnd) :
    ∀ (as : List Nat) (p : Option Nat),
      chainOK h p as → as.Nodup → (∀ x ∈ as, x < h.fresh) →
      as.getLast? = some t →
      chainOK ((h.alloc ⟨v, none, some t⟩).1.write t
          { tnd with next := some h.fresh }) p (as ++ [h.fresh]) := by
  intro as
  induction as with
  | nil => intro p _ _ _ hlast; simp at hlast
  | cons a rest ih =>
    intro p hc hnd hbound hlast
    obtain ⟨nd, hmem, hprev, hnext, hrest⟩ := hc
    have haf : a ≠ h.fresh := Nat.ne_of_lt (hbound a (by simp))
    cases rest with
    | nil =>
      have hat : a = t := by simpa using hlast
      subst hat
      have hnd_eq : nd = tnd := by
        rw [htnd] at hmem
        exact (Option.some.injEq _ _).mp hmem.symm
      refine ⟨{ tnd with next := some h.fresh }, ?_, ?_, ?_, ?_⟩
      · simp [Heap.write]
      · simpa [hnd_eq] using hprev
      · simp
      · refine ⟨⟨v, none, some a⟩, ?_, rfl, by simp, trivial⟩
        simp [Heap.write, Heap.alloc, (Ne.symm haf)]
    | cons b rest' =>
      have hat : a ≠ t := by
        have htmem : t ∈ b :: rest' :=
          getLast?_mem_self (by simpa [List.getLast?_cons_cons] using hlast)
        exact fun hEq => (List.nodup_cons.mp hnd).1 (hEq ▸ htmem)
      refine ⟨nd, ?_, hprev, ?_, ?_⟩
      · simp [Heap.write, Heap.alloc, hat, haf, hmem]
      · simpa using hnext
      · exact ih (some a) hrest (List.nodup_cons.mp hnd).2
          (fun x hx => hbound x (by simp [hx]))
          (by simpa [List.getLast?_cons_cons] using hlast)

theorem queue_push_rep {h : Heap} {q : LinkedList} {as : List Nat}
    (hrep : QueueRep h q as) (g : RegGhost) (v : Int) :
    ∃ h' q', queue_push h (some q) g v
        = .ok (h', some q',
            if as.isEmpty then ⟨true, g.writes + 1⟩ else g) ∧
      QueueRep h' q' (as ++ [h.fresh]) ∧
      chainVals h' (as ++ [h.fresh]) = chainVals h as ++ [v] ∧
      h'.fresh = h.fresh + 1 ∧ q'.index = q.index := by
  obtain ⟨hchain, hhead, htail, hsize, hnodup, hbound⟩ := hrep
  cases as with
  | nil =>
    refine ⟨(h.alloc ⟨v, none, none⟩).1,
      { q with head := some h.fresh, tail := some h.fresh, size := 1 },
      ?_, ?_, ?_, ?_, ?_⟩
    · simp only [List.head?_nil] at hhead
      simp [queue_push, hhead, initialize_linked_list, Heap.alloc]
    · refine ⟨⟨⟨v, none, none⟩, by simp [Heap.alloc], rfl, by simp, trivial⟩,
        by simp, by simp, by simp, by simp, ?_⟩
      intro x hx
      simp at hx
      simp [Heap.alloc, hx]
    · simp [chainVals, Heap.alloc]
    · simp [Heap.alloc]
    · rfl
  | cons a as' =>
    simp only [List.head?_cons] at hhead
    cases hgl : (a :: as').getLast? with
    | none => simp [List.getLast?_cons_cons] at hgl
    | some t =>
      have htail' : q.tail = some t := htail.trans hgl
      have htmem : t ∈ a :: as' := getLast?_mem_self hgl
      have htf : t ≠ h.fresh := Nat.ne_of_lt (hbound t htmem)
      obtain ⟨tnd, htnd⟩ := chainOK_mem hchain t htmem
      refine ⟨(h.alloc ⟨v, none, some t⟩).1.write t
          { tnd with next := some h.fresh },
        { q with tail := some h.fresh, size := q.size + 1 },
        ?_, ?_, ?_, ?_, ?_⟩
      · simp [queue_push, hhead, htail', Heap.alloc, htf, htnd]
      · refine ⟨chainOK_snoc htnd (a :: as') none hchain hnodup hbound hgl,
          by simp [hhead], (getLast?_snoc (a :: as') h.fresh).symm, ?_, ?_, ?_⟩
        · show q.size + 1 = _
          rw [hsize]
          simp only [List.length_append, List.length_cons, List.length_nil]
          push_cast
          ring
        · rw [List.nodup_append]
          refine ⟨hnodup, List.nodup_singleton _, ?_⟩
          intro x hx hy
          simp only [List.mem_singleton] at hy
          subst hy
          exact Nat.ne_of_lt (hbound _ hx) rfl
        · intro x hx
          have hfr : ((h.alloc ⟨v, none, some t⟩).1.write t
              { tnd with next := some h.fresh }).fresh = h.fresh + 1 := rfl
          rw [hfr]
          rcases List.mem_append.mp hx with hx | hx
          · exact Nat.lt_succ_of_lt (hbound x hx)
          · simp only [List.mem_singleton] at hx
            subst hx
            exact Nat.lt_succ_self _
      · rw [chainVals_append]
        congr 1
        · unfold chainVals
          apply List.map_congr_left
          intro x hx
          by_cases hxt : x = t
          · subst hxt
            simp [Heap.write, Heap.alloc, htnd]
          · simp [Heap.write, Heap.alloc, hxt,
              Nat.ne_of_lt (hbound x hx)]
        · simp [chainVals, Heap.write, Heap.alloc, Ne.symm htf]
      · rfl
      · rfl

end QueueC

namespace QueueC

theorem queue_pop_empty {h : Heap} {q : LinkedList} (hq : q.head = none) :
    queue_pop h (some q) = .ok (h, some q, -1) := by
  simp [queue_pop, hq]

theorem queue_pop_rep {h : Heap} {q : LinkedList} {a : Nat} {as : List Nat}
    (hrep : QueueRep h q (a :: as)) :
    ∃ h' q' nd, h.mem a = some nd ∧
      queue_pop h (some q) = .ok (h', some q', nd.data) ∧
      QueueRep h' q' as ∧ chainVals h' as = chainVals h as ∧
      h'.fresh = h.fresh ∧ q'.index = q.index := by
  obtain ⟨hchain, hhead, htail, hsize, hnodup, hbound⟩ := hrep
  obtain ⟨nd, hmem, hprev, hnext, hrest⟩ := hchain
  simp only [List.head?_cons] at hhead
  cases as with
  | nil =>
    simp only [List.head?_nil] at hnext
    refine ⟨h.dealloc a,
      { q with head := none, tail := none, size := q.size - 1 }, nd, hmem,
      ?_, ?_, rfl, rfl, rfl⟩
    · simp [queue_pop, hhead, hmem, hnext]
    · refine ⟨trivial, rfl, rfl, ?_, List.nodup_nil, by simp⟩
      simp only [List.length_cons, List.length_nil] at hsize
      simp [hsize]
  | cons b rest =>
    simp only [List.head?_cons] at hnext
    obtain ⟨bnd, hmemb, hprevb, hnextb, hrest2⟩ := hrest
    have hab : a ≠ b := fun hEq =>
      (List.nodup_cons.mp hnodup).1 (hEq ▸ List.mem_cons_self b rest)
    have hanotin : a ∉ b :: rest := (List.nodup_cons.mp hnodup).1
    refine ⟨(h.write b { bnd with previous := none }).dealloc a,
      { q with head := some b, size := q.size - 1 }, nd, hmem, ?_, ?_, ?_,
      rfl, rfl⟩
    · simp [queue_pop, hhead, hmem, hnext, hmemb]
    · refine ⟨⟨{ bnd with previous := none }, ?_, rfl, by simpa using hnextb,
        ?_⟩, rfl, ?_, ?_, ?_, ?_⟩
      · simp [Heap.dealloc, Heap.write, Ne.symm hab]
      · refine chainOK_congr (fun x hx => ?_) hrest2
        have hxa : x ≠ a := fun hEq =>
          hanotin (hEq ▸ List.mem_cons_of_mem b hx)
        have hxb : x ≠ b := fun hEq =>
          (List.nodup_cons.mp (List.nodup_cons.mp hnodup).2).1 (hEq ▸ hx)
        simp [Heap.dealloc, Heap.write, hxa, hxb]
      · rw [show ({ q with head := some b, size := q.size - 1 } :
            LinkedList).tail = q.tail from rfl, htail,
          List.getLast?_cons_cons]
      · show q.size - 1 = _
        rw [hsize]
        simp only [List.length_cons]
        push_cast
        ring
      · exact (List.nodup_cons.mp hnodup).2
      · intro x hx
        exact hbound x (List.mem_cons_of_mem a hx)
    · unfold chainVals
      apply List.map_congr_left
      intro x hx
      have hxa : x ≠ a := fun hEq => hanotin (hEq ▸ hx)
      by_cases hxb : x = b
      · subst hxb
        simp [Heap.dealloc, Heap.write, hxa, hmemb]
      · simp [Heap.dealloc, Heap.write, hxa, hxb]

theorem queue_free_rep {h : Heap} {q : LinkedList} {as : List Nat}
    (hrep : QueueRep h q as) :
    ∃ h', queue_free h (some q)
        = .ok (h', some { q with head := none, tail := none, size := 0 }) ∧
      QueueWF h' { q with head := none, tail := none, size := 0 } ∧
      h'.fresh = h.fresh ∧ ∀ x, x ∉ as → h'.mem x = h.mem x := by
  obtain ⟨hchain, hhead, htail, hsize, hnodup, hbound⟩ := hrep
  cases as with
  | nil =>
    simp only [List.head?_nil] at hhead
    simp only [List.getLast?_nil] at htail
    simp only [List.length_nil, Nat.cast_zero] at hsize
    have hq : ({ q with head := none, tail := none, size := 0 } :
        LinkedList) = q := by
      cases q
      simp_all
    refine ⟨h, ?_, ?_, rfl, fun x _ => rfl⟩
    · rw [hq]
      simp [queue_free, hhead]
    · exact ⟨[], trivial, by simp, by simp, by simp, List.nodup_nil, by simp⟩
  | cons a as' =>
    simp only [List.head?_cons] at hhead
    have hlen : (a :: as').length ≤ h.fresh + 1 :=
      Nat.le_succ_of_le (length_le_of_nodup_lt hnodup hbound)
    obtain ⟨h', hrun, hfresh, hmem'⟩ :=
      free_loop_chainOK (h := h) (a :: as') none (h.fresh + 1) hchain hnodup hlen
    refine ⟨h', ?_, ?_, hfresh, ?_⟩
    · simp only [List.head?_cons] at hrun
      simp [queue_free, hhead, hrun]
    · exact ⟨[], trivial, by simp, by simp, by simp, List.nodup_nil, by simp⟩
    · intro x hx
      rw [hmem' x, if_neg hx]

end QueueC

namespace QueueC

/-- The queue `q` in heap `h` represents the value sequence `vs`
(front first). -/
def Models (h : Heap) (q : LinkedList) (vs : List Int) : Prop :=
  ∃ as, QueueRep h q as ∧ chainVals h as = vs

theorem Models_head_none {h : Heap} {q : LinkedList} {vs : List Int}
    (hm : Models h q vs) : q.head = none ↔ vs = [] := by
  obtain ⟨as, ⟨_, hhead, _, _, _, _⟩, hvals⟩ := hm
  subst hvals
  cases as with
  | nil => simp [hhead, chainVals]
  | cons a as' => simp [hhead, chainVals]

theorem Models_push {h : Heap} {q : LinkedList} {vs : List Int}
    (hm : Models h q vs) (g : RegGhost) (v : Int) :
    ∃ h' q', queue_push h (some q) g v
        = .ok (h', some q', if vs.isEmpty then ⟨true, g.writes + 1⟩ else g) ∧
      Models h' q' (vs ++ [v]) ∧ q'.index = q.index := by
  obtain ⟨as, hrep, hvals⟩ := hm
  obtain ⟨h', q', heq, hrep', hvals', _, hidx⟩ := queue_push_rep hrep g v
  have hemp : vs.isEmpty = as.isEmpty := by
    subst hvals
    cases as <;> simp [chainVals]
  exact ⟨h', q', hemp ▸ heq, ⟨as ++ [h.fresh], hrep', by rw [hvals', hvals]⟩,
    hidx⟩

theorem Models_pop_cons {h : Heap} {q : LinkedList} {v : Int} {vs : List Int}
    (hm : Models h q (v :: vs)) :
    ∃ h' q', queue_pop h (some q) = .ok (h', some q', v) ∧
      Models h' q' vs ∧ q'.index = q.index := by
  obtain ⟨as, hrep, hvals⟩ := hm
  cases as with
  | nil => simp [chainVals] at hvals
  | cons a as' =>
    obtain ⟨h', q', nd, hmem, heq, hrep', hvals', _, hidx⟩ := queue_pop_rep hrep
    have hv : nd.data = v := by
      have := hvals
      simp only [chainVals, List.map_cons, hmem, Option.map_some,
        Option.getD_some] at this
      exact (List.cons.injEq _ _ _ _).mp this |>.1
    refine ⟨h', q', hv ▸ heq, ⟨as', hrep', ?_⟩, hidx⟩
    rw [hvals']
    have := hvals
    simp only [chainVals, List.map_cons] at this
    exact (List.cons.injEq _ _ _ _).mp this |>.2

theorem Models_pop_nil {h : Heap} {q : LinkedList}
    (hm : Models h q []) : queue_pop h (some q) = .ok (h, some q, -1) :=
  queue_pop_empty ((Models_head_none hm).mpr rfl)

/-- Perform `queue_push` for each value of `vs`, left to right. -/
def pushAll (h : Heap) (lp : Option LinkedList) (g : RegGhost) :
    List Int → Except Crash (Heap × Option LinkedList × RegGhost)
  | [] => .ok (h, lp, g)
  | v :: vs =>
    match queue_push h lp g v with
    | .error e => .error e
    | .ok (h', lp', g') => pushAll h' lp' g' vs

/-- Perform `queue_pop` `n` times, collecting the returned values. -/
def popN (h : Heap) (lp : Option LinkedList) :
    Nat → Except Crash (Heap × Option LinkedList × List Int)
  | 0 => .ok (h, lp, [])
  | n + 1 =>
    match queue_pop h lp with
    | .error e => .error e
    | .ok (h', lp', v) =>
      match popN h' lp' n with
      | .error e => .error e
      | .ok (h'', lp'', vs) => .ok (h'', lp'', v :: vs)

theorem pushAll_Models {vs : List Int} :
    ∀ {h : Heap} {q : LinkedList} {ws : List Int} (g : RegGhost),
      Models h q ws →
      ∃ h' q' g', pushAll h (some q) g vs = .ok (h', some q', g') ∧
        Models h' q' (ws ++ vs) := by
  induction vs with
  | nil => intro h q ws g hm; exact ⟨h, q, g, rfl, by simpa using hm⟩
  | cons v vs ih =>
    intro h q ws g hm
    obtain ⟨h', q', heq, hm', _⟩ := Models_push hm g v
    obtain ⟨h'', q'', g'', heq', hm''⟩ :=
      ih (if ws.isEmpty then (⟨true, g.writes + 1⟩ : RegGhost) else g) hm'
    refine ⟨h'', q'', g'', ?_, by simpa using hm''⟩
    simp only [pushAll, heq, heq']

theorem popN_Models {vs : List Int} :
    ∀ {h : Heap} {q : LinkedList}, Models h q vs →
      ∃ h' q', popN h (some q) vs.length = .ok (h', some q', vs) ∧
        Models h' q' [] := by
  induction vs with
  | nil => intro h q hm; exact ⟨h, q, rfl, hm⟩
  | cons v vs ih =>
    intro h q hm
    obtain ⟨h', q', heq, hm', _⟩ := Models_pop_cons hm
    obtain ⟨h'', q'', heq', hm''⟩ := ih hm'
    refine ⟨h'', q'', ?_, hm''⟩
    simp only [List.length_cons, popN, heq, heq']

/-- C1 — FIFO order: starting from any well-formed queue with no nodes,
pushing `v1..vn` and then popping `n` times succeeds and returns exactly
`v1..vn` in order. -/
theorem C1_fifo_order (h : Heap) (q : LinkedList) (g : RegGhost)
    (vs : List Int) (hwf : QueueWF h q) (hempty : q.head = none) :
    ∃ h' q' g', pushAll h (some q) g vs = .ok (h', some q', g') ∧
      ∃ h'' q'', popN h' (some q') vs.length = .ok (h'', some q'', vs) := by
  have hm : Models h q [] := by
    obtain ⟨as, hrep⟩ := hwf
    have has : as = [] := by
      have := hrep.2.1
      rw [hempty] at this
      cases as with
      | nil => rfl
      | cons a as' => simp at this
    subst has
    exact ⟨[], hrep, rfl⟩
  obtain ⟨h', q', g', heq, hm'⟩ := pushAll_Models g hm
  obtain ⟨h'', q'', heq', _⟩ := popN_Models (by simpa using hm')
  exact ⟨h', q', g', heq, h'', q'', heq'⟩

/-- Witness for C1 at a concrete input: the fresh queue with identifier 0,
values `[3, 1, 2]`. -/
theorem C1_fifo_order_witness :
    ∃ h' q' g', pushAll emptyHeap (some ⟨none, none, 0, 0⟩) ⟨false, 0⟩ [3, 1, 2]
        = .ok (h', some q', g') ∧
      ∃ h'' q'', popN h' (some q') 3 = .ok (h'', some q'', [3, 1, 2]) :=
  C1_fifo_order emptyHeap ⟨none, none, 0, 0⟩ ⟨false, 0⟩ [3, 1, 2]
    ⟨[], trivial, rfl, rfl, rfl, List.nodup_nil, by simp⟩ rfl

end QueueC

namespace QueueC

/-- A concrete one-node heap, used by witnesses. -/
def oneNodeHeap : Heap :=
  ⟨fun x => if x = 0 then some ⟨5, none, none⟩ else none, 1⟩

/-- A concrete queue holding the single value `5` in `oneNodeHeap`. -/
def oneNodeQueue : LinkedList := ⟨some 0, some 0, 1, 0⟩

theorem oneNode_rep : QueueRep oneNodeHeap oneNodeQueue [0] := by
  refine ⟨⟨⟨5, none, none⟩, rfl, rfl, rfl, trivial⟩, rfl, rfl, rfl,
    List.nodup_singleton _, ?_⟩
  intro x hx
  simp only [List.mem_singleton] at hx
  simp [hx, oneNodeHeap]

/-- C10 — `queue_push` on a NULL handle returns normally and changes
nothing: the heap, the (absent) queue, and the registry ghost are all
returned untouched. -/
theorem C10_push_null_noop (h : Heap) (g : RegGhost) (v : Int) :
    queue_push h none g v = .ok (h, none, g) := rfl

/-- C9 — `queue_pop` is atomic on failure: on a NULL handle or a queue with
no nodes it returns `-1` with the heap and the queue record (head, tail,
size) unchanged. -/
theorem C9_pop_atomic_failure (h : Heap) (lp : Option LinkedList)
    (hfail : lp = none ∨ ∃ q, lp = some q ∧ q.head = none) :
    queue_pop h lp = .ok (h, lp, -1) := by
  rcases hfail with rfl | ⟨q, rfl, hq⟩
  · rfl
  · exact queue_pop_empty hq

/-- Witness for C9: a never-pushed queue with identifier 7. -/
theorem C9_pop_atomic_failure_witness :
    queue_pop emptyHeap (some ⟨none, none, 0, 7⟩)
      = .ok (emptyHeap, some ⟨none, none, 0, 7⟩, -1) :=
  C9_pop_atomic_failure emptyHeap (some ⟨none, none, 0, 7⟩)
    (Or.inr ⟨⟨none, none, 0, 7⟩, rfl, rfl⟩)

/-- C2 — on a NULL handle, `queue_pop`/`queue_size`/`queue_is_empty` do
return the claimed no-value results, but `queue_peek` dereferences
`list->index` inside its error `fprintf` and `queue_search` reads
`list->head` with no NULL check: both are NULL-pointer dereferences, not
the claimed `false`/`-1` returns.  On a valid empty queue (head NULL) all
five operations return the claimed no-value results, so a NULL handle is
observably distinguishable from an empty queue on `queue_peek` and
`queue_search`. -/
theorem C2_null_vs_empty (h : Heap) (v : Int) (tl : Option Nat) (ix : Int) :
    queue_peek h none = .error .nullDeref ∧
    queue_search h none v = .error .nullDeref ∧
    queue_pop h none = .ok (h, none, -1) ∧
    queue_size none = 0 ∧
    queue_is_empty none = true ∧
    queue_peek h (some ⟨none, tl, 0, ix⟩) = .ok (false, none) ∧
    queue_search h (some ⟨none, tl, 0, ix⟩) v = .ok (-1) ∧
    queue_pop h (some ⟨none, tl, 0, ix⟩) = .ok (h, some ⟨none, tl, 0, ix⟩, -1) ∧
    queue_size (some ⟨none, tl, 0, ix⟩) = 0 ∧
    queue_is_empty (some ⟨none, tl, 0, ix⟩) = true :=
  ⟨rfl, rfl, rfl, rfl, rfl, rfl, rfl, rfl, rfl, rfl⟩

/-- C7 — `queue_free` resets any well-formed queue to the fresh-empty state:
afterwards `queue_size` is 0, `queue_is_empty` is true, `queue_pop` returns
`-1`, `queue_peek` returns false, the record fields equal those of a freshly
created never-pushed queue (up to the identifier), and a second
`queue_free` is a no-op returning the state unchanged. -/
theorem C7_free_resets (h : Heap) (q : LinkedList) (hwf : QueueWF h q) :
    ∃ h' q', queue_free h (some q) = .ok (h', some q') ∧
      q'.head = none ∧ q'.tail = none ∧ q'.size = 0 ∧ q'.index = q.index ∧
      queue_size (some q') = 0 ∧
      queue_is_empty (some q') = true ∧
      queue_pop h' (some q') = .ok (h', some q', -1) ∧
      queue_peek h' (some q') = .ok (false, none) ∧
      queue_free h' (some q') = .ok (h', some q') := by
  obtain ⟨as, hrep⟩ := hwf
  obtain ⟨h', heq, _, _, _⟩ := queue_free_rep hrep
  exact ⟨h', _, heq, rfl, rfl, rfl, rfl, rfl, rfl, rfl, rfl, rfl⟩

/-- Witness for C7: freeing the concrete one-node queue. -/
theorem C7_free_resets_witness :
    ∃ h' q', queue_free oneNodeHeap (some oneNodeQueue) = .ok (h', some q') ∧
      q'.head = none ∧ q'.tail = none ∧ q'.size = 0 ∧
      q'.index = oneNodeQueue.index ∧
      queue_size (some q') = 0 ∧
      queue_is_empty (some q') = true ∧
      queue_pop h' (some q') = .ok (h', some q', -1) ∧
      queue_peek h' (some q') = .ok (false, none) ∧
      queue_free h' (some q') = .ok (h', some q') :=
  C7_free_resets oneNodeHeap oneNodeQueue ⟨[0], oneNode_rep⟩

end QueueC

namespace QueueC

/-- Queue states reachable from a freshly created queue (as returned by
`queue_create`: both pointers NULL, size 0, any identifier, not yet
registered) through successful `queue_push`, `queue_pop` and `queue_free`
steps.  The initial heap is arbitrary: other queues' nodes may already
live there. -/
inductive Reach : Heap → LinkedList → RegGhost → Prop
  | init (h : Heap) (idx : Int) : Reach h ⟨none, none, 0, idx⟩ ⟨false, 0⟩
  | push {h q g h' q' g'} (v : Int) (hr : Reach h q g)
      (hs : queue_push h (some q) g v = .ok (h', some q', g')) :
      Reach h' q' g'
  | pop {h q g h' q' r} (hr : Reach h q g)
      (hs : queue_pop h (some q) = .ok (h', some q', r)) : Reach h' q' g
  | free {h q g h' q'} (hr : Reach h q g)
      (hs : queue_free h (some q) = .ok (h', some q')) : Reach h' q' g

theorem Reach_WF {h : Heap} {q : LinkedList} {g : RegGhost}
    (hr : Reach h q g) : QueueWF h q := by
  induction hr with
  | init h idx =>
    exact ⟨[], trivial, rfl, rfl, rfl, List.nodup_nil, by simp⟩
  | push v hr hs ih =>
    obtain ⟨as, hrep⟩ := ih
    obtain ⟨h2, q2, heq, hrep', _, _, _⟩ := queue_push_rep hrep _ v
    have hinj := heq.symm.trans hs
    simp only [Except.ok.injEq, Prod.mk.injEq, Option.some.injEq] at hinj
    obtain ⟨rfl, rfl, -⟩ := hinj
    exact ⟨_, hrep'⟩
  | pop hr hs ih =>
    rename_i h q g h' q' r
    obtain ⟨as, hrep⟩ := ih
    cases as with
    | nil =>
      have hhd : q.head = none := by simpa using hrep.2.1
      have heq := queue_pop_empty (h := h) hhd
      have hinj := heq.symm.trans hs
      simp only [Except.ok.injEq, Prod.mk.injEq, Option.some.injEq] at hinj
      obtain ⟨rfl, rfl, -⟩ := hinj
      exact ⟨[], hrep⟩
    | cons a as' =>
      obtain ⟨h2, q2, nd, _, heq, hrep', _, _, _⟩ := queue_pop_rep hrep
      have hinj := heq.symm.trans hs
      simp only [Except.ok.injEq, Prod.mk.injEq, Option.some.injEq] at hinj
      obtain ⟨rfl, rfl, -⟩ := hinj
      exact ⟨_, hrep'⟩
  | free hr hs ih =>
    obtain ⟨as, hrep⟩ := ih
    obtain ⟨h2, heq, hwf', _, _⟩ := queue_free_rep hrep
    have hinj := heq.symm.trans hs
    simp only [Except.ok.injEq, Prod.mk.injEq, Option.some.injEq] at hinj
    obtain ⟨rfl, rfl⟩ := hinj
    exact hwf'

end QueueC

namespace QueueC

/-- C3 — chain-consistency invariant: in every state reachable from a fresh
queue via `queue_push`/`queue_pop`/`queue_free`, `size == 0` iff head and
tail are both NULL, head and tail are both NULL or both non-NULL, and from
a non-NULL head, following `next` links `size - 1` times reaches the tail
while following `previous` links `size - 1` times from the tail reaches the
head. -/
theorem C3_chain_invariant (h : Heap) (q : LinkedList) (g : RegGhost)
    (hr : Reach h q g) :
    (q.size = 0 ↔ q.head = none ∧ q.tail = none) ∧
    (q.head = none ↔ q.tail = none) ∧
    (∀ a, q.head = some a → ∃ t, q.tail = some t ∧
      walkNext h a (q.size - 1).toNat = some t ∧
      walkPrev h t (q.size - 1).toNat = some a) := by
  obtain ⟨as, hchain, hhead, htail, hsize, hnodup, hbound⟩ := Reach_WF hr
  refine ⟨?_, ?_, ?_⟩
  · rw [hsize, hhead, htail]
    cases as with
    | nil => simp
    | cons a rest =>
      simp only [List.head?_cons, List.length_cons]
      constructor
      · intro h0
        exfalso
        omega
      · intro hcontra
        exact absurd hcontra.1 (by simp)
  · rw [hhead, htail]
    cases as with
    | nil => simp
    | cons a rest => simp [List.getLast?_eq_none_iff]
  · intro a ha
    rw [hhead] at ha
    cases as with
    | nil => simp at ha
    | cons a0 rest =>
      simp only [List.head?_cons, Option.some.injEq] at ha
      subst ha
      cases hgl : (a0 :: rest).getLast? with
      | none => simp [List.getLast?_eq_none_iff] at hgl
      | some t =>
        have hstep : (q.size - 1).toNat = rest.length := by
          rw [hsize]
          simp only [List.length_cons]
          omega
        refine ⟨t, htail.trans hgl, ?_, ?_⟩
        · rw [hstep, walkNext_chainOK rest none a0 hchain]
          exact hgl
        · have := walkPrev_chainOK (a0 :: rest) none hchain t hgl
          simpa [hstep] using this

/-- The heap after pushing `5` onto a fresh queue over the empty heap. -/
def pushedHeap : Heap := (emptyHeap.alloc ⟨5, none, none⟩).1

/-- The queue record after pushing `5` onto a fresh queue with
identifier 0. -/
def pushedQueue : LinkedList := ⟨some 0, some 0, 1, 0⟩

/-- Witness for C3: the invariant at the concrete state reached by one push
of `5` onto a fresh queue. -/
theorem C3_chain_invariant_witness :
    (pushedQueue.size = 0 ↔ pushedQueue.head = none ∧ pushedQueue.tail = none) ∧
    (pushedQueue.head = none ↔ pushedQueue.tail = none) ∧
    (∀ a, pushedQueue.head = some a → ∃ t, pushedQueue.tail = some t ∧
      walkNext pushedHeap a (pushedQueue.size - 1).toNat = some t ∧
      walkPrev pushedHeap t (pushedQueue.size - 1).toNat = some a) :=
  C3_chain_invariant pushedHeap pushedQueue ⟨true, 1⟩
    (Reach.push 5 (Reach.init emptyHeap 0) rfl)

end QueueC

namespace QueueC

theorem queue_push_ghost {h : Heap} {q : LinkedList} {g : RegGhost} {v : Int}
    {h' : Heap} {q' : LinkedList} {g' : RegGhost}
    (hs : queue_push h (some q) g v = .ok (h', some q', g')) :
    g' = if q.head = none then ⟨true, g.writes + 1⟩ else g := by
  cases hq : q.head with
  | none =>
    simp only [queue_push, hq, initialize_linked_list, Heap.alloc,
      Except.ok.injEq, Prod.mk.injEq, Option.some.injEq] at hs
    simp [hq, hs.2.2.symm]
  | some a =>
    cases ht : q.tail with
    | none =>
      simp [queue_push, hq, ht] at hs
    | some t =>
      cases hm : (h.alloc ⟨v, none, some t⟩).1.mem t with
      | none =>
        simp [queue_push, hq, ht, hm] at hs
      | some tnd =>
        simp only [queue_push, hq, ht, hm, Except.ok.injEq, Prod.mk.injEq,
          Option.some.injEq] at hs
        simp [hq, hs.2.2.symm]

/-- One user operation on a single queue. -/
inductive QOp where
  | pushOp (v : Int)
  | popOp
  | freeOp
  deriving Repr, DecidableEq

/-- One step of a user operation, threading heap, list pointer and
registry ghost (`queue_pop` and `queue_free` never touch the registry). -/
def stepOp (h : Heap) (lp : Option LinkedList) (g : RegGhost) :
    QOp → Except Crash (Heap × Option LinkedList × RegGhost)
  | .pushOp v => queue_push h lp g v
  | .popOp =>
    match queue_pop h lp with
    | .error e => .error e
    | .ok (h', lp', _) => .ok (h', lp', g)
  | .freeOp =>
    match queue_free h lp with
    | .error e => .error e
    | .ok (h', lp') => .ok (h', lp', g)

/-- Run a sequence of user operations on one queue. -/
def runOps (h : Heap) (lp : Option LinkedList) (g : RegGhost) :
    List QOp → Except Crash (Heap × Option LinkedList × RegGhost)
  | [] => .ok (h, lp, g)
  | op :: ops =>
    match stepOp h lp g op with
    | .error e => .error e
    | .ok (h', lp', g') => runOps h' lp' g' ops

/-- Counterexample to C5 as stated: on the run create; push 1; pop; push 2
the registry slot `registered_queues[list->index]` is written twice — the
second push finds `head == NULL` (the queue was drained, not never-pushed)
and `initialize_linked_list` executes the registration assignment again. -/
theorem C5_counterexample :
    (runOps emptyHeap (some ⟨none, none, 0, 0⟩) ⟨false, 0⟩
        [.pushOp 1, .popOp, .pushOp 2]).map (fun s => s.2.2.writes)
      = .ok 2 ∧
    (runOps emptyHeap (some ⟨none, none, 0, 0⟩) ⟨false, 0⟩
        [.pushOp 1]).map (fun s => s.2.2.writes) = .ok 1 := ⟨rfl, rfl⟩

theorem Reach_slot_iff_writes {h : Heap} {q : LinkedList} {g : RegGhost}
    (hr : Reach h q g) : g.slot = true ↔ 0 < g.writes := by
  induction hr with
  | init h idx => simp
  | push v hr hs ih =>
    rename_i h q g h' q' g'
    have hg := queue_push_ghost hs
    by_cases hq : q.head = none
    · rw [hg, if_pos hq]
      simp
    · rw [hg, if_neg hq]
      exact ih
  | pop hr hs ih => exact ih
  | free hr hs ih => exact ih

end QueueC

namespace QueueC

/-- C5 (amended) — the registration discipline the code implements: in any
reachable state the registry slot is occupied iff at least one registration
write has happened; a push onto a queue with no nodes (the first push, or a
refill after the queue was drained or freed) performs exactly one more
registration write of the same queue into its slot and leaves the slot
occupied; a push onto a non-empty queue, a pop and a free never write the
slot; and a freshly created queue starts unregistered (`queue_create` does
not register). -/
theorem C5_registration_policy (h : Heap) (q : LinkedList) (g : RegGhost)
    (hr : Reach h q g) :
    (g.slot = true ↔ 0 < g.writes) ∧
    (∀ v h' q' g', queue_push h (some q) g v = .ok (h', some q', g') →
      g' = if q.head = none then ⟨true, g.writes + 1⟩ else g) ∧
    (∀ h' lp' g', stepOp h (some q) g .popOp = .ok (h', lp', g') → g' = g) ∧
    (∀ h' lp' g', stepOp h (some q) g .freeOp = .ok (h', lp', g') → g' = g) := by
  refine ⟨Reach_slot_iff_writes hr,
    fun v h' q' g' hs => queue_push_ghost hs, ?_, ?_⟩
  · intro h' lp' g' hs
    cases hp : queue_pop h (some q) with
    | error e => simp [stepOp, hp] at hs
    | ok s =>
      obtain ⟨h2, lp2, r⟩ := s
      simp only [stepOp, hp, Except.ok.injEq, Prod.mk.injEq] at hs
      exact hs.2.2.symm
  · intro h' lp' g' hs
    cases hp : queue_free h (some q) with
    | error e => simp [stepOp, hp] at hs
    | ok s =>
      obtain ⟨h2, lp2⟩ := s
      simp only [stepOp, hp, Except.ok.injEq, Prod.mk.injEq] at hs
      exact hs.2.2.symm

/-- Heap after push 1 then pop on a fresh queue over the empty heap. -/
def drainedHeap : Heap := ((emptyHeap.alloc ⟨1, none, none⟩).1).dealloc 0

/-- Queue record after push 1 then pop: drained, but previously pushed. -/
def drainedQueue : LinkedList := ⟨none, none, 0, 0⟩

/-- Witness for C5 (amended) at the drained state reached by
create; push 1; pop: the refill push 2 performs a second registration
write. -/
theorem C5_registration_policy_witness :
    ((⟨true, 1⟩ : RegGhost).slot = true ↔ 0 < (1 : Nat)) ∧
    (⟨true, 2⟩ : RegGhost)
      = if drainedQueue.head = none
          then ⟨true, (⟨true, 1⟩ : RegGhost).writes + 1⟩
          else ⟨true, 1⟩ := by
  have hR : Reach drainedHeap drainedQueue ⟨true, 1⟩ :=
    Reach.pop (Reach.push 1 (Reach.init emptyHeap 0) rfl) rfl
  have hthm := C5_registration_policy drainedHeap drainedQueue ⟨true, 1⟩ hR
  exact ⟨hthm.1, hthm.2.1 2 (drainedHeap.alloc ⟨2, none, none⟩).1
    ⟨some 1, some 1, 1, 0⟩ ⟨true, 2⟩ rfl⟩

end QueueC

namespace QueueC

theorem Models_nil_of_head_none {h : Heap} {q : LinkedList}
    (hwf : QueueWF h q) (hh : q.head = none) : Models h q [] := by
  obtain ⟨as, hrep⟩ := hwf
  cases as with
  | nil => exact ⟨[], hrep, rfl⟩
  | cons a as' =>
    rw [hrep.2.1] at hh
    simp at hh

/-- Specification-side search result (stated from the spec's words): the
1-based index of the first element equal to `v`, or `-1` when `v` is
absent. -/
def searchSpec (v : Int) (vs : List Int) : Int :=
  if v ∈ vs then (vs.indexOf v : Int) + 1 else -1

theorem queue_search_models {h : Heap} {q : LinkedList} {vs : List Int}
    (hm : Models h q vs) (v : Int) :
    queue_search h (some q) v = .ok (searchSpec v vs) := by
  obtain ⟨as, ⟨hchain, hhead, _, _, hnodup, hbound⟩, hvals⟩ := hm
  subst hvals
  cases as with
  | nil =>
    have hh : q.head = none := by simpa using hhead
    simp [queue_search, hh, chainVals, searchSpec]
  | cons a as' =>
    have hha : q.head = some a := by simpa using hhead
    have hlen : (a :: as').length ≤ h.fresh + 1 :=
      Nat.le_succ_of_le (length_le_of_nodup_lt hnodup hbound)
    have hsl := search_loop_chainOK (h := h) (v := v) (a :: as') none 1
      (h.fresh + 1) hchain hlen
    rw [show ((a :: as').head? : Option Nat) = some a from rfl] at hsl
    simp only [queue_search, hha, hsl]
    congr 1
    rw [firstPos_eq, searchSpec]
    by_cases hv : v ∈ chainVals h (a :: as')
    · simp only [hv, if_true]
      omega
    · simp [hv]

/-- The values pushed by an operation sequence, in push order. -/
def pushedVals : List QOp → List Int
  | [] => []
  | .pushOp v :: ops => v :: pushedVals ops
  | .popOp :: ops => pushedVals ops
  | .freeOp :: ops => pushedVals ops

/-- Spec-side step: the remaining value sequence together with the running
count of elements actually removed by pops. -/
def specStep : List Int × Nat → QOp → List Int × Nat
  | (vs, j), .pushOp v => (vs ++ [v], j)
  | ([], j), .popOp => ([], j)
  | (_ :: vs, j), .popOp => (vs, j + 1)
  | (_, j), .freeOp => ([], j)

theorem specRun_inv :
    ∀ (ops : List QOp), (∀ op ∈ ops, op ≠ QOp.freeOp) →
      ∀ (P0 vs0 : List Int) (j0 : Nat), vs0 = P0.drop j0 → j0 ≤ P0.length →
      (ops.foldl specStep (vs0, j0)).1
          = (P0 ++ pushedVals ops).drop (ops.foldl specStep (vs0, j0)).2 ∧
        (ops.foldl specStep (vs0, j0)).2 ≤ (P0 ++ pushedVals ops).length := by
  intro ops
  induction ops with
  | nil =>
    intro _ P0 vs0 j0 hvs hj
    simpa [pushedVals] using ⟨hvs, hj⟩
  | cons op ops ih =>
    intro hnf P0 vs0 j0 hvs hj
    have hnf' : ∀ o ∈ ops, o ≠ QOp.freeOp :=
      fun o ho => hnf o (List.mem_cons_of_mem _ ho)
    cases op with
    | pushOp v =>
      have hdrop : vs0 ++ [v] = (P0 ++ [v]).drop j0 := by
        rw [List.drop_append_of_le_length hj, hvs]
      have := ih hnf' (P0 ++ [v]) (vs0 ++ [v]) j0 hdrop
        (by simpa using Nat.le_succ_of_le hj)
      simpa [List.foldl_cons, specStep, pushedVals, List.append_assoc]
        using this
    | popOp =>
      cases vs0 with
      | nil =>
        have := ih hnf' P0 [] j0 hvs hj
        simpa [List.foldl_cons, specStep, pushedVals] using this
      | cons w ws =>
        have hj1 : j0 + 1 ≤ P0.length := by
          by_contra hc
          have hle : P0.length ≤ j0 := by omega
          rw [List.drop_eq_nil_of_le hle] at hvs
          exact List.cons_ne_nil w ws hvs
        have hdrop : ws = P0.drop (j0 + 1) := by
          have hdd : P0.drop (j0 + 1) = (P0.drop j0).drop 1 := by
            rw [List.drop_drop, Nat.add_comm]
          rw [hdd, ← hvs]
          rfl
        have := ih hnf' P0 ws (j0 + 1) hdrop hj1
        simpa [List.foldl_cons, specStep, pushedVals] using this
    | freeOp => exact absurd rfl (hnf _ (List.mem_cons_self _ _))

theorem runOps_Models :
    ∀ (ops : List QOp) {h : Heap} {q : LinkedList} {vs : List Int}
      (g : RegGhost) (j : Nat), Models h q vs →
      ∃ h' q' g', runOps h (some q) g ops = .ok (h', some q', g') ∧
        Models h' q' (ops.foldl specStep (vs, j)).1 := by
  intro ops
  induction ops with
  | nil =>
    intro h q vs g j hm
    exact ⟨h, q, g, rfl, hm⟩
  | cons op ops ih =>
    intro h q vs g j hm
    cases op with
    | pushOp v =>
      obtain ⟨h1, q1, heq, hm1, _⟩ := Models_push hm g v
      obtain ⟨h', q', g', heq', hm'⟩ :=
        ih (if vs.isEmpty then (⟨true, g.writes + 1⟩ : RegGhost) else g) j hm1
      refine ⟨h', q', g', ?_, ?_⟩
      · simp only [runOps, stepOp, heq, heq']
      · simpa [List.foldl_cons, specStep] using hm'
    | popOp =>
      cases vs with
      | nil =>
        have heq := Models_pop_nil hm
        obtain ⟨h', q', g', heq', hm'⟩ := ih g j hm
        refine ⟨h', q', g', ?_, ?_⟩
        · simp only [runOps, stepOp, heq, heq']
        · simpa [List.foldl_cons, specStep] using hm'
      | cons w ws =>
        obtain ⟨h1, q1, heq, hm1, _⟩ := Models_pop_cons hm
        obtain ⟨h', q', g', heq', hm'⟩ := ih g (j + 1) hm1
        refine ⟨h', q', g', ?_, ?_⟩
        · simp only [runOps, stepOp, heq, heq']
        · simpa [List.foldl_cons, specStep] using hm'
    | freeOp =>
      obtain ⟨as, hrep, _⟩ := hm
      obtain ⟨h1, heq, hwf1, _, _⟩ := queue_free_rep hrep
      have hm1 : Models h1 _ [] := Models_nil_of_head_none hwf1 rfl
      obtain ⟨h', q', g', heq', hm'⟩ := ih g j hm1
      refine ⟨h', q', g', ?_, ?_⟩
      · simp only [runOps, stepOp, heq, heq']
      · simpa [List.foldl_cons, specStep] using hm'

/-- C8 — search returns the first match, 1-based: after any sequence of
pushes and pops on a fresh queue, the current contents are the pushed
values (in push order) with the first `j` dropped, where `j` is the number
of elements removed by pops so far; `queue_search v` returns the 1-based
position of the first occurrence of `v` in that sequence and `-1` when `v`
is not present (never pushed, or already popped out). -/
theorem C8_search_first_match (ops : List QOp) (idx : Int) (v : Int)
    (hnofree : ∀ op ∈ ops, op ≠ QOp.freeOp)
    {h' : Heap} {q' : LinkedList} {g' : RegGhost}
    (hrun : runOps emptyHeap (some ⟨none, none, 0, idx⟩) ⟨false, 0⟩ ops
      = .ok (h', some q', g')) :
    queue_search h' (some q') v
      = .ok (searchSpec v ((pushedVals ops).drop
          (ops.foldl specStep ([], 0)).2)) := by
  have hm0 : Models emptyHeap ⟨none, none, 0, idx⟩ [] :=
    ⟨[], ⟨trivial, rfl, rfl, rfl, List.nodup_nil, by simp⟩, rfl⟩
  obtain ⟨h2, q2, g2, heq, hm⟩ := runOps_Models ops ⟨false, 0⟩ 0 hm0
  have hinj := heq.symm.trans hrun
  simp only [Except.ok.injEq, Prod.mk.injEq, Option.some.injEq] at hinj
  obtain ⟨rfl, rfl, rfl⟩ := hinj
  obtain ⟨hdrop, _⟩ := specRun_inv ops hnofree [] [] 0 rfl (by simp)
  rw [queue_search_models hm v, hdrop]
  simp

/-- Operation sequence for the C8 witness: push 10, 20, 30, then pop. -/
def c8Ops : List QOp := [.pushOp 10, .pushOp 20, .pushOp 30, .popOp]

/-- Heap after running `c8Ops` on a fresh queue over the empty heap. -/
def c8Heap : Heap :=
  (((((emptyHeap.alloc ⟨10, none, none⟩).1.alloc
        ⟨20, none, some 0⟩).1.write 0 ⟨10, some 1, none⟩).alloc
      ⟨30, none, some 1⟩).1.write 1 ⟨20, some 2, some 0⟩).write 1
    ⟨20, some 2, none⟩ |>.dealloc 0

/-- Queue record after running `c8Ops`. -/
def c8Queue : LinkedList := ⟨some 1, some 2, 2, 0⟩

/-- Witness for C8 at the concrete run push 10, 20, 30, pop: searching for
20 finds it at position 1. -/
theorem C8_search_first_match_witness :
    queue_search c8Heap (some c8Queue) 20
      = .ok (searchSpec 20 ((pushedVals c8Ops).drop
          (c8Ops.foldl specStep ([], 0)).2)) :=
  C8_search_first_match c8Ops 0 20 (by decide)
    (rfl : runOps emptyHeap (some ⟨none, none, 0, 0⟩) ⟨false, 0⟩ c8Ops
      = .ok (c8Heap, some c8Queue, ⟨true, 1⟩))

end QueueC

namespace QueueC

/-- The process-wide state read and written by `queue_create`: registry
slot occupancy (`registered_queues[i] != NULL`) and `next_index`. -/
structure CState where
  slots : Nat → Bool
  next_index : Int

/-- Process state at startup: empty registry, `next_index = 0`. -/
def initialCState : CState := ⟨fun _ => false, 0⟩

/-- The two recoverable failures of `queue_create`. -/
inductive CreateErr where
  | resourceExhausted
  | allocationFailure
  deriving Repr, DecidableEq

/-- `queue_create()`: when `next_index >= MAX_QUEUES` it logs and returns
NULL (ResourceExhausted) without touching any state; otherwise, if `malloc`
succeeds (`allocOk`), it returns a list with all pointers NULL, size 0 and
`index = next_index`, and increments `next_index`; a failed `malloc` also
leaves the state untouched.  Registry slots are never written. -/
def queue_create (st : CState) (allocOk : Bool) :
    CState × Except CreateErr LinkedList :=
  if st.next_index ≥ MAX_QUEUES then (st, .error .resourceExhausted)
  else if allocOk then
    ({ st with next_index := st.next_index + 1 },
      .ok ⟨none, none, 0, st.next_index⟩)
  else (st, .error .allocationFailure)

/-- Run a sequence of `queue_create` calls with the given `malloc`
outcomes. -/
def runCreates : CState → List Bool → CState
  | st, [] => st
  | st, ok :: oks => runCreates (queue_create st ok).1 oks

theorem queue_create_slots (st : CState) (allocOk : Bool) :
    (queue_create st allocOk).1.slots = st.slots := by
  unfold queue_create
  split
  · rfl
  · split <;> rfl

theorem runCreates_slots :
    ∀ (oks : List Bool) (st : CState),
      (runCreates st oks).slots = st.slots := by
  intro oks
  induction oks with
  | nil => intro st; rfl
  | cons ok oks ih =>
    intro st
    rw [runCreates, ih, queue_create_slots]

theorem runCreates_next_index :
    ∀ (oks : List Bool) (st : CState),
      0 ≤ st.next_index → st.next_index ≤ MAX_QUEUES →
      (runCreates st oks).next_index
        = min (st.next_index + oks.count true) MAX_QUEUES := by
  intro oks
  induction oks with
  | nil =>
    intro st _ hle
    simp only [runCreates, List.count_nil]
    omega
  | cons ok oks ih =>
    intro st hnn hle
    by_cases hfull : st.next_index ≥ MAX_QUEUES
    · have hst : (queue_create st ok).1 = st := by
        unfold queue_create
        rw [if_pos hfull]
      rw [runCreates, hst, ih st hnn hle]
      have : st.next_index = MAX_QUEUES := le_antisymm hle hfull
      rw [this]
      unfold MAX_QUEUES
      cases ok with
      | false => simp [List.count_cons]
      | true =>
        simp [List.count_cons]
        omega
    · push_neg at hfull
      cases ok with
      | true =>
        have hst : (queue_create st true).1
            = { st with next_index := st.next_index + 1 } := by
          unfold queue_create
          rw [if_neg (by omega), if_pos rfl]
        rw [runCreates, hst, ih _ (by simp; omega) (by simp; omega)]
        simp [List.count_cons]
        omega
      | false =>
        have hst : (queue_create st false).1 = st := by
          unfold queue_create
          rw [if_neg (by omega)]
          rfl
        rw [runCreates, hst, ih st hnn hle]
        simp [List.count_cons]

/-- C4 — queue-count limit: starting from process startup, after any
sequence of `queue_create` calls in which `k` calls had a successful
`malloc`, a further call with a successful `malloc` (i) succeeds and
returns an empty list with identifier `k` whenever `k < MAX_QUEUES`, and
(ii) when `k = MAX_QUEUES` (the 101st such call) deterministically fails
with the ResourceExhausted diagnostic, returning NULL and leaving
`next_index` and every registry slot unchanged. -/
theorem C4_queue_count_limit (oks : List Bool) :
    ((oks.count true : Int) < MAX_QUEUES →
      (queue_create (runCreates initialCState oks) true).2
        = .ok ⟨none, none, 0, (oks.count true : Int)⟩ ∧
      (queue_create (runCreates initialCState oks) true).1.next_index
        = (oks.count true : Int) + 1) ∧
    ((oks.count true : Int) = MAX_QUEUES →
      queue_create (runCreates initialCState oks) true
        = (runCreates initialCState oks, .error .resourceExhausted)) := by
  have hni : (runCreates initialCState oks).next_index
      = min ((0 : Int) + oks.count true) MAX_QUEUES :=
    runCreates_next_index oks initialCState (by simp [initialCState])
      (by simp [initialCState, MAX_QUEUES])
  constructor
  · intro hlt
    have hni' : (runCreates initialCState oks).next_index
        = (oks.count true : Int) := by
      rw [hni]
      omega
    constructor
    · unfold queue_create
      rw [if_neg (by rw [hni']; omega), if_pos rfl, hni']
    · unfold queue_create
      rw [if_neg (by rw [hni']; omega), if_pos rfl]
      simp [hni']
  · intro heq
    have hni' : (runCreates initialCState oks).next_index = MAX_QUEUES := by
      rw [hni]
      omega
    unfold queue_create
    rw [if_pos (by rw [hni'])]

set_option maxHeartbeats 1600000 in
/-- Witness for C4: after 99 successful creates the 100th succeeds with
identifier 99; after 100 successful creates the 101st fails with
ResourceExhausted and changes nothing. -/
theorem C4_queue_count_limit_witness :
    ((queue_create (runCreates initialCState (List.replicate 99 true))
        true).2 = .ok ⟨none, none, 0, (99 : Int)⟩ ∧
      (queue_create (runCreates initialCState (List.replicate 99 true))
        true).1.next_index = (99 : Int) + 1) ∧
    queue_create (runCreates initialCState (List.replicate 100 true)) true
      = (runCreates initialCState (List.replicate 100 true),
          .error .resourceExhausted) := by
  have hc99 : (List.replicate 99 true).count true = 99 := by simp
  have hc100 : (List.replicate 100 true).count true = 100 := by simp
  have h1 := (C4_queue_count_limit (List.replicate 99 true)).1
    (by rw [hc99]; norm_num [MAX_QUEUES])
  have h2 := (C4_queue_count_limit (List.replicate 100 true)).2
    (by rw [hc100]; norm_num [MAX_QUEUES])
  rw [hc99] at h1
  exact ⟨⟨h1.1, h1.2⟩, h2⟩

end QueueC

namespace QueueC

theorem QueueRep_congr {h h' : Heap} {q : LinkedList} {as : List Nat}
    (hagree : ∀ x ∈ as, h'.mem x = h.mem x) (hfr : h'.fresh = h.fresh)
    (hrep : QueueRep h q as) : QueueRep h' q as := by
  obtain ⟨hchain, hhead, htail, hsize, hnodup, hbound⟩ := hrep
  exact ⟨chainOK_congr hagree hchain, hhead, htail, hsize, hnodup,
    fun a ha => hfr ▸ hbound a ha⟩

/-- The registry as swept at exit: `registered_queues` (each occupied slot
holding its queue record) and `next_index`. -/
structure Registry where
  slots : Nat → Option LinkedList
  next_index : Int

/-- The `for (i = 0; i < next_index; i++)` loop of `cleanup_linked_list`:
for each occupied slot, free the node chain when head or tail is non-NULL
(`queue_free`), release the queue record, and clear the slot. -/
def cleanup_loop (h : Heap) (slots : Nat → Option LinkedList) :
    List Nat → Except Crash (Heap × (Nat → Option LinkedList))
  | [] => .ok (h, slots)
  | i :: rest =>
    match slots i with
    | none => cleanup_loop h slots rest
    | some q =>
      if q.head.isSome || q.tail.isSome then
        match queue_free h (some q) with
        | .error e => .error e
        | .ok (h', _) =>
          cleanup_loop h' (fun x => if x = i then none else slots x) rest
      else cleanup_loop h (fun x => if x = i then none else slots x) rest

/-- `cleanup_linked_list()`: sweep slots `0 .. next_index - 1`, then reset
`next_index` to 0. -/
def cleanup_linked_list (h : Heap) (r : Registry) :
    Except Crash (Heap × Registry) :=
  match cleanup_loop h r.slots (List.range r.next_index.toNat) with
  | .error e => .error e
  | .ok (h', slots') => .ok (h', ⟨slots', 0⟩)

theorem cleanup_loop_clears (A : Nat → List Nat) :
    ∀ (idxs : List Nat) (h : Heap) (slots : Nat → Option LinkedList),
      (∀ i ∈ idxs, ∀ q, slots i = some q → QueueRep h q (A i)) →
      (∀ i, ∀ j, i ≠ j → ∀ x ∈ A i, x ∉ A j) →
      ∃ h' slots', cleanup_loop h slots idxs = .ok (h', slots') ∧
        (∀ i ∈ idxs, slots' i = none) ∧
        (∀ i, i ∉ idxs → slots' i = slots i) ∧ h'.fresh = h.fresh := by
  intro idxs
  induction idxs with
  | nil =>
    intro h slots _ _
    exact ⟨h, slots, rfl, by simp, fun i _ => rfl, rfl⟩
  | cons i rest ih =>
    intro h slots hrep hdisj
    cases hsi : slots i with
    | none =>
      obtain ⟨h', slots', hrun, hclear, hkeep, hfr⟩ :=
        ih h slots
          (fun j hj q hq => hrep j (List.mem_cons_of_mem _ hj) q hq) hdisj
      refine ⟨h', slots', ?_, ?_, ?_, hfr⟩
      · simp only [cleanup_loop, hsi]
        exact hrun
      · intro j hj
        rcases List.mem_cons.mp hj with rfl | hj
        · by_cases hjr : j ∈ rest
          · exact hclear j hjr
          · rw [hkeep j hjr, hsi]
        · exact hclear j hj
      · intro j hj
        exact hkeep j (fun hc => hj (List.mem_cons_of_mem _ hc))
    | some q =>
      have hq : QueueRep h q (A i) := hrep i (List.mem_cons_self _ _) q hsi
      cases hAi : A i with
      | nil =>
        have hh : q.head = none := by
          have := hq.2.1
          rw [hAi] at this
          simpa using this
        have ht : q.tail = none := by
          have := hq.2.2.1
          rw [hAi] at this
          simpa using this
        obtain ⟨h', slots', hrun, hclear, hkeep, hfr⟩ :=
          ih h (fun x => if x = i then none else slots x)
            (fun j hj q' hq' => by
              by_cases hji : j = i
              · rw [hji] at hq'
                simp at hq'
              · simp only [if_neg hji] at hq'
                exact hrep j (List.mem_cons_of_mem _ hj) q' hq') hdisj
        refine ⟨h', slots', ?_, ?_, ?_, hfr⟩
        · simp only [cleanup_loop, hsi, hh, ht, Option.isSome_none,
            Bool.or_self, Bool.false_eq_true, if_false]
          exact hrun
        · intro j hj
          rcases List.mem_cons.mp hj with rfl | hj
          · by_cases hjr : j ∈ rest
            · exact hclear j hjr
            · rw [hkeep j hjr, if_pos rfl]
          · exact hclear j hj
        · intro j hj
          have hji : j ≠ i := fun hc => hj (hc ▸ List.mem_cons_self _ _)
          rw [hkeep j (fun hc => hj (List.mem_cons_of_mem _ hc)),
            if_neg hji]
      | cons a as' =>
        have hh : q.head = some a := by
          have := hq.2.1
          rw [hAi] at this
          simpa using this
        obtain ⟨h1, heq, _, hfr1, hmem1⟩ := queue_free_rep (hAi ▸ hq)
        obtain ⟨h', slots', hrun, hclear, hkeep, hfr⟩ :=
          ih h1 (fun x => if x = i then none else slots x)
            (fun j hj q' hq' => by
              by_cases hji : j = i
              · rw [hji] at hq'
                simp at hq'
              · simp only [if_neg hji] at hq'
                refine QueueRep_congr ?_ hfr1
                  (hrep j (List.mem_cons_of_mem _ hj) q' hq')
                intro x hx
                have hxAi : x ∉ A i :=
                  fun hc => hdisj i j (Ne.symm hji) x hc hx
                rw [hAi] at hxAi
                exact hmem1 x hxAi) hdisj
        refine ⟨h', slots', ?_, ?_, ?_, ?_⟩
        · simp only [cleanup_loop, hsi, hh, Option.isSome_some,
            Bool.true_or, if_true, heq]
          exact hrun
        · intro j hj
          rcases List.mem_cons.mp hj with rfl | hj
          · by_cases hjr : j ∈ rest
            · exact hclear j hjr
            · rw [hkeep j hjr, if_pos rfl]
          · exact hclear j hj
        · intro j hj
          have hji : j ≠ i := fun hc => hj (hc ▸ List.mem_cons_self _ _)
          rw [hkeep j (fun hc => hj (List.mem_cons_of_mem _ hc)),
            if_neg hji]
        · rw [hfr]
          exact hfr1

/-- C6 — teardown sweep: on any registry whose occupied slots hold
well-formed queues with pairwise disjoint chains, `cleanup_linked_list`
succeeds, iterates slots `0` up to (excluding) `next_index`, frees each
occupied queue's chain when non-empty, clears every swept slot, leaves
slots outside the swept range untouched, and resets `next_index` to 0. -/
theorem C6_teardown_sweep (h : Heap) (r : Registry) (A : Nat → List Nat)
    (hrep : ∀ i q, r.slots i = some q → QueueRep h q (A i))
    (hdisj : ∀ i j, i ≠ j → ∀ x ∈ A i, x ∉ A j) :
    ∃ h' slots', cleanup_linked_list h r = .ok (h', ⟨slots', 0⟩) ∧
      (∀ i : Nat, (i : Int) < r.next_index → slots' i = none) ∧
      (∀ i : Nat, ¬((i : Int) < r.next_index) → slots' i = r.slots i) := by
  obtain ⟨h', slots', hrun, hclear, hkeep, _⟩ :=
    cleanup_loop_clears A (List.range r.next_index.toNat) h r.slots
      (fun i _ q hq => hrep i q hq) hdisj
  refine ⟨h', slots', ?_, ?_, ?_⟩
  · simp only [cleanup_linked_list, hrun]
  · intro i hi
    refine hclear i (List.mem_range.mpr ?_)
    omega
  · intro i hi
    refine hkeep i ?_
    intro hc
    have := List.mem_range.mp hc
    omega

/-- Registry with a single occupied slot (the one-node queue), for the C6
witness. -/
def c6Registry : Registry :=
  ⟨fun i => if i = 0 then some oneNodeQueue else none, 1⟩

/-- Chain assignment for the C6 witness. -/
def c6Chains : Nat → List Nat := fun i => if i = 0 then [0] else []

/-- Witness for C6: sweeping a registry holding one one-node queue clears
the slot and resets the counter. -/
theorem C6_teardown_sweep_witness :
    ∃ h' slots', cleanup_linked_list oneNodeHeap c6Registry
        = .ok (h', ⟨slots', 0⟩) ∧
      (∀ i : Nat, (i : Int) < c6Registry.next_index → slots' i = none) ∧
      (∀ i : Nat, ¬((i : Int) < c6Registry.next_index) →
        slots' i = c6Registry.slots i) :=
  C6_teardown_sweep oneNodeHeap c6Registry c6Chains
    (fun i q hq => by
      by_cases hi : i = 0
      · subst hi
        have hqe : oneNodeQueue = q := by
          simpa [c6Registry] using hq
        subst hqe
        simpa [c6Chains] using oneNode_rep
      · simp [c6Registry, hi] at hq)
    (fun i j hij x hx => by
      by_cases hi : i = 0
      · subst hi
        simp [c6Chains, Ne.symm hij]
      · simp [c6Chains, hi] at hx)

end QueueC
